import Mathlib

/-!
Shallow embedding of the scVAE data module (`data.py`, `auxiliary.py`):
the dataset cache-key builder, the sparse on-disk store, the
train/validation/test splitter, the preprocessing pipeline with its
weight engine (Gini, IDF), the shape checks of `DataSet.update`, and the
bag-of-words builder.  Numeric values are modelled by exact rationals
(the Python code performs no rounding of its own beyond IEEE floats);
external collaborators (numpy's seeded permutation, `numpy.log`,
`sklearn`'s square root, the Porter2 stemmer, Python's hash-backed set
order) are modelled as explicit parameters.
-/

set_option maxRecDepth 4000

namespace SCVAE

/-! ## String helpers (`auxiliary.py`) -/

/-- `normaliseString` from `auxiliary.py`:
`s.lower().replace(" ", "_").replace("(", "").replace(")", "")`. -/
def normaliseString (s : String) : String :=
  String.mk
    ((((s.data.map Char.toLower).map
      (fun c => if c = ' ' then '_' else c)).filter (fun c => c ≠ '(')).filter
      (fun c => c ≠ ')'))

/-- `os.path.join` for the two-argument uses in `data.py` (no absolute or
trailing-slash components occur there). -/
def osJoin (d n : String) : String :=
  if d = "" then n else d ++ "/" ++ n

/-- Joining path segments with the separator, on character lists:
`"-".join(filename_parts)` from `preprocessedPath`. -/
def sepJoin : List (List Char) → List Char
  | [] => []
  | [s] => s
  | s :: s₂ :: rest => s ++ '-' :: sepJoin (s₂ :: rest)

/-- `"-".join` on strings, via `sepJoin`. -/
def joinWithDash (parts : List String) : String :=
  String.mk (sepJoin (parts.map String.data))

/-- What a joined list contributes after its first segment. -/
def sepRest : List (List Char) → List Char
  | [] => []
  | s :: r => '-' :: sepJoin (s :: r)

/-- Substring test on character lists (Python's `"set" in key`). -/
def hasSubstr (p : List Char) : List Char → Bool
  | [] => decide (p = [])
  | c :: cs => p.isPrefixOf (c :: cs) || hasSubstr p cs

/-- `"set" in key` — the group/flat dispatch used by the sparse store. -/
def containsSet (k : String) : Bool :=
  hasSubstr "set".data k.data

/-! ## Cache-key builder (`preprocessedPathFunction` in `data.py`) -/

def preprocess_suffix : String := "preprocessed"

def preprocessed_extension : String := ".sparse.pkl.gz"

/-- One optional filename part: Python appends `normaliseString(s)` only
when the original string `s` is truthy (non-empty). -/
def optPart (o : Option String) : List String :=
  match o with
  | none => []
  | some s => if s = "" then [] else [normaliseString s]

/-- The `preprocessedPath` closure returned by `preprocessedPathFunction`.
`baseName`/`featureSelection`/`splittingMethod` are optional strings
(Python default `None`); `preprocessingMethods` is a list (default
`None`/`[]`, both falsy); `splittingFraction` is carried as the string
form `str(splitting_fraction)` produced by the Python call (absent when
the float argument is falsy). -/
def preprocessedPath (preprocessDirectory name : String)
    (baseName : Option String) (preprocessingMethods : List String)
    (featureSelection : Option String) (splittingMethod : Option String)
    (splittingFraction : Option String) : String :=
  let basePath := osJoin preprocessDirectory name
  let parts₁ := [basePath] ++ optPart baseName
  let parts₂ := parts₁ ++ optPart featureSelection
  let parts₃ := parts₂ ++ preprocessingMethods.map normaliseString
  let parts₄ := parts₃ ++
    (match splittingMethod with
     | none => []
     | some m =>
        if m = "" then [] else
          ["split", normaliseString m] ++
            (match splittingFraction with
             | none => []
             | some f => if f = "" then [] else [f]))
  joinWithDash parts₄ ++ preprocessed_extension

/-- Modelled from the spec (§4.1), for comparison with `preprocessedPath`:
the segment list "base path, then — only if present — the normalised
suffix, the normalised feature-selection tag, each normalised
preprocessing tag in caller order, the literal `split`, the normalised
split-method tag, and the split fraction's string form". -/
def cacheKeySegmentsSpec (preprocessDirectory name : String)
    (baseName : Option String) (preprocessingMethods : List String)
    (featureSelection : Option String) (splittingMethod : Option String)
    (splittingFraction : Option String) : List String :=
  [osJoin preprocessDirectory name] ++
    optPart baseName ++
    optPart featureSelection ++
    preprocessingMethods.map normaliseString ++
    (match splittingMethod with
     | none => []
     | some m =>
        if m = "" then [] else
          ["split", normaliseString m] ++
            (match splittingFraction with
             | none => []
             | some f => if f = "" then [] else [f]))

/-! ### Valid configurations (registry and §6 configuration surface) -/

/-- The four keys of the module-level `data_sets` registry. -/
inductive DatasetName where
  | mouseRetina | mnist | reuters | newsgroups20
deriving DecidableEq, Fintype

/-- The raw registry key of a dataset. -/
def datasetNameStr : DatasetName → String
  | .mouseRetina => "mouse retina"
  | .mnist => "MNIST"
  | .reuters => "Reuters"
  | .newsgroups20 => "20 Newsgroups"

/-- Feature-selection policies that produce a path segment
(`None` is modelled by `Option.none` at the use site). -/
inductive FeatureSel where
  | removeZeros | lowGiniIndices
deriving DecidableEq, Fintype

def featureSelStr : FeatureSel → String
  | .removeZeros => "remove zeros"
  | .lowGiniIndices => "low gini indices"

/-- Preprocessing method tags of §6. -/
inductive PMethod where
  | binarise | gini | idf | normalise
deriving DecidableEq, Fintype

def pMethodStr : PMethod → String
  | .binarise => "binarise"
  | .gini => "gini"
  | .idf => "idf"
  | .normalise => "normalise"

/-- Split methods after `default` resolution in `DataSet.split`. -/
inductive SMethod where
  | random | indices
deriving DecidableEq, Fintype

def sMethodStr : SMethod → String
  | .random => "random"
  | .indices => "indices"

/-- A full split-cache configuration: dataset name, feature-selection
choice, ordered preprocessing method list, split method, and the split
fraction (carried as its string form `str(fraction)`). -/
structure SplitCacheConfig where
  name : DatasetName
  featureSelection : Option FeatureSel
  preprocessingMethods : List PMethod
  splittingMethod : SMethod
  fractionStr : String
deriving DecidableEq

/-- Well-formedness of a fraction's string form: non-empty and free of
the path separator (true of `str(f)` for every float `f ∈ (0,1)`). -/
def fractionStrOK (s : String) : Prop :=
  s ≠ "" ∧ '-' ∉ s.data

instance (s : String) : Decidable (fractionStrOK s) := by
  unfold fractionStrOK; infer_instance

/-- The cache path `DataSet.split` computes for a configuration: the
`DataSet` constructor sets `preprocess_directory =
data/<name>/preprocessed` and the path closure is called with the
normalised dataset name, the preprocessing methods, the feature
selection, the resolved split method and the fraction. -/
def dataSetSplitPath (c : SplitCacheConfig) : String :=
  let n := normaliseString (datasetNameStr c.name)
  preprocessedPath (osJoin (osJoin "data" n) preprocess_suffix) n
    none (c.preprocessingMethods.map pMethodStr)
    (c.featureSelection.map featureSelStr)
    (some (sMethodStr c.splittingMethod))
    (some c.fractionStr)

/-! ## Splitter (`splitDataSet`, `method = "random"`) -/

/-- The `random` branch of `splitDataSet`.  The seeded permutation
`numpy.random.permutation(M)` (numpy is an external collaborator; its
determinism under `numpy.random.seed(42)` is a numpy guarantee) is taken
as the input `shuffled`; `M = values.shape[0] = shuffled.length`.
`int(...)` on the non-negative products is floor. -/
def splitDataSetRandom (shuffled : List ℕ) (fraction : ℚ) :
    List ℕ × List ℕ × List ℕ :=
  let M := shuffled.length
  let MTrainingValidation := (⌊fraction * M⌋).toNat
  let MTraining := (⌊fraction * MTrainingValidation⌋).toNat
  (shuffled.take MTraining,
   (shuffled.drop MTraining).take (MTrainingValidation - MTraining),
   shuffled.drop MTrainingValidation)

/-! ## SparseStore (`saveAsSparseData` / `loadFromSparseData`) -/

/-- Compressed-sparse-row form of a 2-D array as produced by
`scipy.sparse.csr_matrix(dense)`: per row the (column, value) pairs of
the nonzero entries (in column order), plus the column count of the
shape. -/
structure CSRMat where
  rows : List (List (ℕ × ℚ))
  ncolsCSR : ℕ
deriving DecidableEq

/-- Nonzero entries of one dense row, with their column indices starting
at `j₀` (`csr_matrix` keeps exactly the nonzero entries). -/
def rowNZ (j₀ : ℕ) : List ℚ → List (ℕ × ℚ)
  | [] => []
  | x :: xs => if x = 0 then rowNZ (j₀ + 1) xs else (j₀, x) :: rowNZ (j₀ + 1) xs

/-- Column count of a dense matrix (`values.shape[1]`; numpy arrays are
rectangular, so the first row is representative). -/
def ncols (m : List (List ℚ)) : ℕ :=
  match m with
  | [] => 0
  | r :: _ => r.length

/-- `scipy.sparse.csr_matrix` on a dense 2-D array. -/
def csrOfDense (m : List (List ℚ)) : CSRMat :=
  ⟨m.map (rowNZ 0), ncols m⟩

/-- One dense row reconstructed from its sparse entries over columns
`j₀, …, j₀ + n - 1`: positions not listed are zero. -/
def reconRowFrom (j₀ n : ℕ) (sr : List (ℕ × ℚ)) : List ℚ :=
  (List.range' j₀ n).map
    (fun j => ((sr.find? (fun p => p.1 = j)).map Prod.snd).getD 0)

/-- `sparse.todense().A`: the dense 2-D array of a CSR matrix. -/
def denseOfCSR (s : CSRMat) : List (List ℚ) :=
  s.rows.map (reconRowFrom 0 s.ncolsCSR)

/-- A value stored in a cache dictionary: a dense 2-D numeric array, a
CSR-encoded array, a 1-D numeric vector, or a non-numeric container
(string vector, e.g. feature names). -/
inductive Container where
  | dense2 : List (List ℚ) → Container
  | sparse : CSRMat → Container
  | vec1 : List ℚ → Container
  | strVec : List String → Container
deriving DecidableEq

/-- The `converter` closure of `saveAsSparseData`:
`csr_matrix(data)` when `type(data) == numpy.ndarray and data.ndim == 2`,
otherwise the value unchanged. -/
def saveConverter : Container → Container
  | .dense2 m => .sparse (csrOfDense m)
  | c => c

/-- The `converter` closure of `loadFromSparseData`:
`data.todense().A` when `type(data) == scipy.sparse.csr.csr_matrix`,
otherwise the value unchanged. -/
def loadConverter : Container → Container
  | .sparse s => .dense2 (denseOfCSR s)
  | c => c

/-- A top-level entry of a data dictionary: either a single container or
a nested mapping (a named group such as `"training set"`). -/
inductive Entry where
  | flat : Container → Entry
  | group : List (String × Container) → Entry
deriving DecidableEq

/-- A data dictionary: named entries in insertion order. -/
abbrev Bundle := List (String × Entry)

/-- Sequences a fallible conversion over a list, aborting on the first
failure (the Python loop raises on the failing element). -/
def mapOptList {α β : Type} (f : α → Option β) : List α → Option (List β)
  | [] => some []
  | a :: as =>
    match f a, mapOptList f as with
    | some b, some bs => some (b :: bs)
    | _, _ => none

/-- One entry of the `saveAsSparseData` loop.  When the key contains
`"set"` the value is traversed as a mapping one level deep; iterating a
flat ndarray there raises (float rows are invalid indices), modelled as
`none`.  When the key does not contain `"set"` the converter is applied
to the value itself (a dict value passes through unchanged: it is not an
ndarray). -/
def saveEntry (k : String) : Entry → Option Entry
  | .group g =>
    if containsSet k then
      some (.group (g.map (fun p => (p.1, saveConverter p.2))))
    else
      some (.group g)
  | .flat c =>
    if containsSet k then none else some (.flat (saveConverter c))

/-- `saveAsSparseData` up to the gzip/pickle write (which persists the
converted dictionary verbatim). -/
def saveAsSparseData (b : Bundle) : Option Bundle :=
  mapOptList (fun p => (saveEntry p.1 p.2).map (fun e => (p.1, e))) b

/-- One entry of the `loadFromSparseData` loop; the same key dispatch
with the inverse converter. -/
def loadEntry (k : String) : Entry → Option Entry
  | .group g =>
    if containsSet k then
      some (.group (g.map (fun p => (p.1, loadConverter p.2))))
    else
      some (.group g)
  | .flat c =>
    if containsSet k then none else some (.flat (loadConverter c))

/-- The conversion loop of `loadFromSparseData` on a decoded dictionary. -/
def loadBundle (b : Bundle) : Option Bundle :=
  mapOptList (fun p => (loadEntry p.1 p.2).map (fun e => (p.1, e))) b

/-- Content of a cache file on disk: a pickled dictionary, or bytes that
`pickle.load` cannot decode. -/
inductive CacheFile where
  | corrupt : CacheFile
  | stored : Bundle → CacheFile
deriving DecidableEq

/-- Failures of the data module. -/
inductive DataError where
  | CacheCorrupt | DimensionMismatch | DatasetNotFound
deriving DecidableEq

/-- `loadFromSparseData` as a whole: decode the pickle (failing on
corrupt bytes), then run the conversion loop. -/
def loadFromSparseData : CacheFile → Except DataError Bundle
  | .corrupt => .error .CacheCorrupt
  | .stored b =>
    match loadBundle b with
    | some d => .ok d
    | none => .error .CacheCorrupt

/-- The cache skeleton shared by `DataSet.load`, `DataSet.preprocess`
and `DataSet.split`:
`if os.path.isfile(path): loadFromSparseData(path) else: compute; save`.
There is no exception handler, so a failing load propagates; `none`
models a missing cache file. -/
def cacheOrCompute (cache : Option CacheFile) (computed : Bundle) :
    Except DataError Bundle :=
  match cache with
  | some f => loadFromSparseData f
  | none => .ok computed

/-! ## `DataSet.update` shape checks -/

/-- A raw-loader result bundle as consumed by `DataSet.load` (labels are
kept as strings; their element type is opaque to the checks). -/
structure LoaderBundle where
  values : List (List ℚ)
  labels : List String
  exampleNames : List String
  featureNames : List String
deriving DecidableEq

/-- The assertions of `DataSet.update` for a call with the given
optional arguments: `assert M_values == M_examples` when example names
are supplied and `assert N_values == N_features` when feature names are
supplied; nothing else is checked (in particular labels are stored
without any check). `true` means no assertion fires. -/
def updateAsserts (values : Option (List (List ℚ)))
    (exampleNames : Option (List String))
    (featureNames : Option (List String))
    (_labels : Option (List String)) : Bool :=
  match values with
  | none => true
  | some v =>
    (match exampleNames with
     | none => true
     | some e => decide (e.length = v.length)) &&
    (match featureNames with
     | none => true
     | some f => decide (f.length = ncols v))

/-- The `update` call made by `DataSet.load` on a raw-loader bundle
(all four fields supplied). -/
def loadBundleCheck (b : LoaderBundle) : Bool :=
  updateAsserts (some b.values) (some b.exampleNames) (some b.featureNames)
    (some b.labels)

/-! ## WeightEngine (`computeGiniIndices`,
`computeInverseGlobalFrequencyWeights`) and the preprocessing pipeline -/

/-- Row-major M×N matrix of exact rationals. -/
abbrev Mat := List (List ℚ)

/-- The columns of a matrix (entry `j` of every row, missing entries 0;
numpy arrays are rectangular so the default is never used there). -/
def colsOf (m : Mat) : List (List ℚ) :=
  (List.range (ncols m)).map (fun j => m.map (fun r => r.getD j 0))

/-- Dot product (`index_vector @ column`). -/
def dotQ (a b : List ℚ) : ℚ :=
  (List.zipWith (· * ·) a b).sum

/-- Insert into an ascending list. -/
def insertAsc (x : ℚ) : List ℚ → List ℚ
  | [] => [x]
  | y :: ys => if x ≤ y then x :: y :: ys else y :: insertAsc x ys

/-- Ascending sort (`numpy.sort(batch, axis=0)` per column). -/
def sortAsc (l : List ℚ) : List ℚ :=
  l.foldr insertAsc []

/-- `numpy.clip(x, lo, hi)` elementwise:
`numpy.minimum(hi, numpy.maximum(x, lo))`. -/
def npClip (x lo hi : ℚ) : ℚ :=
  min hi (max x lo)

/-- The default `epsilon = 1e-16` of `computeGiniIndices`. -/
def giniEpsilon : ℚ := 1 / 10 ^ 16

/-- `index_vector = 2 * numpy.arange(1, M + 1) - M - 1`. -/
def indexVector (M : ℕ) : List ℚ :=
  (List.range M).map (fun i => 2 * ((i : ℚ) + 1) - M - 1)

/-- `computeGiniIndices(data, epsilon = 1e-16)` from `data.py`.  The
clip line is `data = numpy.clip(data, epsilon, data)` — upper bound the
data array itself.  Per column (the `batch_size` blocks partition the
columns and are semantically transparent: sums, sorts and the dot
product are per column): normalise by the column sum, sort ascending,
and take `index_vector @ column / M`. -/
def computeGiniIndices (data : Mat) : List ℚ :=
  let M := data.length
  let clipped := data.map (fun r => r.map (fun x => npClip x giniEpsilon x))
  (colsOf clipped).map
    (fun col => dotQ (indexVector M) (sortAsc (col.map (· / col.sum))) / M)

/-- Modelled from the spec (§4.6), for comparison with
`computeGiniIndices`: "clip all entries to be ≥ epsilon" (`max x ε`),
then normalise, sort, and dot with the index vector. -/
def computeGiniIndicesSpec (data : Mat) : List ℚ :=
  let M := data.length
  let clipped := data.map (fun r => r.map (fun x => max x giniEpsilon))
  (colsOf clipped).map
    (fun col => dotQ (indexVector M) (sortAsc (col.map (· / col.sum))) / M)

/-- External numeric collaborators used by the pipeline: `numpy.log`
(IDF weights) and the square root inside `sklearn.preprocessing.normalize`.
Both are transcendental; the claims never force their evaluation. -/
structure Externals where
  logFn : ℚ → ℚ
  sqrtFn : ℚ → ℚ

/-- `computeInverseGlobalFrequencyWeights`: per feature,
`log(M / (countOfExamplesWithNonzeroValue + 1))` where the count is
`sum(where(data > 0, 1, 0))` over examples. -/
def computeInverseGlobalFrequencyWeights (ext : Externals) (data : Mat) :
    List ℚ :=
  let M := data.length
  (colsOf data).map
    (fun col => ext.logFn ((M : ℚ) / (((col.filter (fun x => 0 < x)).length : ℚ) + 1)))

/-- `weights * data`: numpy broadcasting multiplies entry `(i, j)` by
`weights[j]`. -/
def mulColumns (w : List ℚ) (m : Mat) : Mat :=
  m.map (fun r => List.zipWith (· * ·) w r)

/-- `loadWeights(data, method, path)` in the compute branch (the
cache-hit branch is the sparse store of `cacheOrCompute`): `"gini"` and
`"idf"` dispatch to their computations; any other method name leaves the
local variable `weights` unbound, raising at the dictionary build —
modelled as `none`. -/
def loadWeights (ext : Externals) (data : Mat) (method : String) :
    Option (List ℚ) :=
  if method = "gini" then some (computeGiniIndices data)
  else if method = "idf" then some (computeInverseGlobalFrequencyWeights ext data)
  else none

/-- `applyWeights(data, method, path)`:
`loadWeights(...) * data`. -/
def applyWeights (ext : Externals) (data : Mat) (method : String) :
    Option Mat :=
  (loadWeights ext data method).map (fun w => mulColumns w data)

/-- `binarise`: `(x != 0).astype('float')`. -/
def binariseM (m : Mat) : Mat :=
  m.map (fun r => r.map (fun x => if x = 0 then 0 else 1))

/-- `sklearn.preprocessing.normalize(x, norm='l2', axis=1)`: each row is
divided by its Euclidean norm; zero rows are left unchanged. -/
def l2normalize (sqrtFn : ℚ → ℚ) (m : Mat) : Mat :=
  m.map (fun r =>
    let n := sqrtFn (dotQ r r)
    if n = 0 then r else r.map (· / n))

/-- `preprocessValues(values, preprocessing_methods, path)` exactly as
written: the loop builds one closure per method, but the `gini`/`idf`
closure is `lambda x: applyWeights(x, preprocessing_method, ...)` and
Python closes over the loop variable by reference, so at application
time (after the loop) every weight closure sees the final value of
`preprocessing_method` — the last element of the list.  The closures
are then composed left to right by `reduce`. -/
def preprocessValues (ext : Externals) (values : Mat)
    (preprocessingMethods : List String) : Option Mat :=
  let captured := preprocessingMethods.getLast?
  let steps := preprocessingMethods.map (fun m =>
    if m = "binarise" then (fun x => some (binariseM x))
    else if m = "gini" ∨ m = "idf" then
      (fun x =>
        match captured with
        | some cm => applyWeights ext x cm
        | none => none)
    else if m = "normalise" then (fun x => some (l2normalize ext.sqrtFn x))
    else (fun x => some x))
  steps.foldl (fun acc step => acc.bind step) (some values)

/-- Modelled from the spec (§4.5), for comparison with
`preprocessValues`: each occurrence of `gini`/`idf` multiplies the
columns by the weights computed for that same method name; the other
tags are as in the source. -/
def preprocessValuesSpec (ext : Externals) (values : Mat)
    (preprocessingMethods : List String) : Option Mat :=
  let steps := preprocessingMethods.map (fun m =>
    if m = "binarise" then (fun x => some (binariseM x))
    else if m = "gini" ∨ m = "idf" then (fun x => applyWeights ext x m)
    else if m = "normalise" then (fun x => some (l2normalize ext.sqrtFn x))
    else (fun x => some x))
  steps.foldl (fun acc step => acc.bind step) (some values)

/-! ## BagOfWordsBuilder (`createBagOfWords`) -/

/-- The character class of the continuation `[\d.,\-\(\)+]*` after a
digit run. -/
def isDigitTailChar (c : Char) : Bool :=
  c.isDigit || c = '.' || c = ',' || c = '-' || c = '(' || c = ')' || c = '+'

/-- Scanner for `re.sub(r"\d+[\d.,\-\(\)+]*", " DIGIT ", text)`: the
flag records whether the scan is inside the continuation of a digit run
(already replaced), whose further continuation characters are dropped;
a fresh digit starts a replacement. -/
def collapseAux : Bool → List Char → List Char
  | _, [] => []
  | inTail, c :: cs =>
    if inTail && isDigitTailChar c then collapseAux true cs
    else if c.isDigit then
      ' ' :: 'D' :: 'I' :: 'G' :: 'I' :: 'T' :: ' ' :: collapseAux true cs
    else c :: collapseAux false cs

/-- `re.sub(r"\d+[\d.,\-\(\)+]*", " DIGIT ", text)`: each maximal run of
digits with its `[\d.,\-\(\)+]*` continuation is replaced by the literal
`" DIGIT "`. -/
def collapseDigits (l : List Char) : List Char :=
  collapseAux false l

/-- A character matched by the token pattern `[\w'\-]+`. -/
def isTokChar (c : Char) : Bool :=
  c.isAlphanum || c = '_' || c = '\'' || c = '-'

/-- Maximal runs of token characters
(`re.compile(r"[\w'\-]+").findall`); `acc` holds the current run
reversed. -/
def tokensAux : List Char → List Char → List (List Char)
  | [], acc => if acc.isEmpty then [] else [acc.reverse]
  | c :: cs, acc =>
    if isTokChar c then tokensAux cs (c :: acc)
    else if acc.isEmpty then tokensAux cs []
    else acc.reverse :: tokensAux cs []

/-- The `findWords` closure of `createBagOfWords`: lower-case, collapse
digit runs to `" DIGIT "`, extract tokens, and stem each token.  The
Porter2 stemmer (`stemming.porter2`) is an external library, passed as
`stem`. -/
def findWords (stem : String → String) (text : String) : List String :=
  (tokensAux (collapseDigits (text.data.map Char.toLower)) []).map
    (fun t => stem (String.mk t))

/-- The accumulated `set` of distinct stems, canonically enumerated
(the actual runtime order is applied on top, see `createBagOfWords`). -/
def distinctList (l : List String) : List String :=
  l.dedup

/-- `createBagOfWords(documents)`.  The vocabulary is
`list(set_of_distinct_stems)`: Python's set is hash-backed, so the
enumeration order is a property of the runtime (hash seed), not of the
corpus; it is modelled by the parameter `setOrder`, which reorders the
collected distinct stems.  Entry `(i, j)` of the matrix counts the
occurrences of vocabulary word `j` in document `i`. -/
def createBagOfWords (stem : String → String)
    (setOrder : List String → List String) (documents : List String) :
    List (List ℕ) × List String :=
  let documentsWords := documents.map (findWords stem)
  let distinctWords := setOrder (distinctList documentsWords.flatten)
  let bagOfWords := documentsWords.map
    (fun ws => distinctWords.map (fun w => (ws.filter (fun x => x = w)).length))
  (bagOfWords, distinctWords)

/-! ## Well-formedness predicates -/

/-- A dense matrix is rectangular (numpy 2-D arrays always are). -/
def rectB (m : List (List ℚ)) : Bool :=
  m.all (fun r => r.length = ncols m)

/-- A container a caller can put into a cache dictionary: a rectangular
dense 2-D array, a 1-D vector, or a non-numeric container (never an
already-sparse matrix — the callers of `saveAsSparseData` hold ndarrays). -/
def containerOK : Container → Bool
  | .dense2 m => rectB m
  | .sparse _ => false
  | .vec1 _ => true
  | .strVec _ => true

/-- A bundle entry consistent with the store's key dispatch: flat values
sit under keys without `"set"`, and the members of a group under a
`"set"` key are plain containers. -/
def entryOK (k : String) : Entry → Bool
  | .flat c => !containsSet k && containerOK c
  | .group g => !containsSet k || g.all (fun p => containerOK p.2)

/-- A data dictionary as produced by the callers of `saveAsSparseData`. -/
def bundleOK (b : Bundle) : Bool :=
  b.all (fun p => entryOK p.1 p.2)

/-- The first path segment of `dataSetSplitPath`:
`os.path.join(preprocess_directory, name)` with the directories the
`DataSet` constructor derives from the normalised dataset name. -/
def baseSeg (n : DatasetName) : String :=
  osJoin (osJoin (osJoin "data" (normaliseString (datasetNameStr n)))
    preprocess_suffix) (normaliseString (datasetNameStr n))

/-- The flat segment list underlying `dataSetSplitPath c`. -/
def splitSegList (c : SplitCacheConfig) : List String :=
  [baseSeg c.name]
    ++ optPart (c.featureSelection.map featureSelStr)
    ++ (c.preprocessingMethods.map pMethodStr).map normaliseString
    ++ ["split", normaliseString (sMethodStr c.splittingMethod)]
    ++ (if c.fractionStr = "" then [] else [c.fractionStr])

/-! ## Helper lemmas: CSR round trip -/

theorem rowNZ_fst_ge (xs : List ℚ) :
    ∀ j₀ q, q ∈ rowNZ j₀ xs → j₀ ≤ q.1 := by
  induction xs with
  | nil => intro j₀ q h; simp [rowNZ] at h
  | cons x xs ih =>
    intro j₀ q h
    by_cases hx : x = 0
    · simp only [rowNZ, hx, if_true] at h
      exact Nat.le_of_succ_le (ih (j₀ + 1) q h)
    · simp only [rowNZ, hx, if_false, List.mem_cons] at h
      rcases h with h | h
      · simp [h]
      · exact Nat.le_of_succ_le (ih (j₀ + 1) q h)

theorem reconRowFrom_rowNZ (xs : List ℚ) :
    ∀ j₀, reconRowFrom j₀ xs.length (rowNZ j₀ xs) = xs := by
  induction xs with
  | nil => intro j₀; simp [reconRowFrom, List.range']
  | cons x xs ih =>
    intro j₀
    have hrange : List.range' j₀ (x :: xs).length
        = j₀ :: List.range' (j₀ + 1) xs.length := List.range'_succ j₀ xs.length 1
    by_cases hx : x = 0
    · have hnone :
          (rowNZ (j₀ + 1) xs).find? (fun p => p.1 = j₀) = none := by
        rw [List.find?_eq_none]
        intro q hq
        have := rowNZ_fst_ge xs (j₀ + 1) q hq
        simp only [decide_eq_true_eq]
        omega
      simp only [reconRowFrom, hrange, List.map_cons]
      simp only [rowNZ, hx, if_true]
      rw [hnone]
      have := ih (j₀ + 1)
      simp only [reconRowFrom] at this
      rw [this]
      simp
    · simp only [reconRowFrom, hrange, List.map_cons]
      simp only [rowNZ, hx, if_false]
      have hhead :
          (((j₀, x) :: rowNZ (j₀ + 1) xs).find? (fun p => p.1 = j₀)) = some (j₀, x) :=
        List.find?_cons_of_pos _ (by simp)
      rw [hhead]
      have htail : (List.range' (j₀ + 1) xs.length).map
            (fun j => ((((j₀, x) :: rowNZ (j₀ + 1) xs).find?
              (fun p => p.1 = j)).map Prod.snd).getD 0)
          = (List.range' (j₀ + 1) xs.length).map
            (fun j => (((rowNZ (j₀ + 1) xs).find?
              (fun p => p.1 = j)).map Prod.snd).getD 0) := by
        apply List.map_congr_left
        intro j hj
        have hj' : j₀ + 1 ≤ j := (List.mem_range'_1.mp hj).1
        rw [List.find?_cons_of_neg]
        simp only [decide_eq_true_eq]
        omega
      rw [htail]
      have := ih (j₀ + 1)
      simp only [reconRowFrom] at this
      rw [this]
      simp

theorem denseOfCSR_csrOfDense (m : List (List ℚ)) (h : rectB m = true) :
    denseOfCSR (csrOfDense m) = m := by
  simp only [denseOfCSR, csrOfDense, List.map_map]
  have : ∀ r ∈ m, reconRowFrom 0 (ncols m) (rowNZ 0 r) = r := by
    intro r hr
    have hlen : r.length = ncols m := by
      simp only [rectB, List.all_eq_true, decide_eq_true_eq] at h
      exact h r hr
    rw [← hlen]
    exact reconRowFrom_rowNZ r 0
  calc m.map (reconRowFrom 0 (ncols m) ∘ rowNZ 0)
      = m.map id := List.map_congr_left (fun r hr => this r hr)
    _ = m := List.map_id m

theorem loadConverter_saveConverter (c : Container) (h : containerOK c = true) :
    loadConverter (saveConverter c) = c := by
  cases c with
  | dense2 m =>
    simp only [containerOK] at h
    simp only [saveConverter, loadConverter, denseOfCSR_csrOfDense m h]
  | sparse s => simp [containerOK] at h
  | vec1 v => rfl
  | strVec v => rfl

theorem loadEntry_saveEntry (k : String) (e : Entry) (h : entryOK k e = true) :
    ∃ e₂, saveEntry k e = some e₂ ∧ loadEntry k e₂ = some e := by
  cases e with
  | flat c =>
    simp only [entryOK, Bool.and_eq_true, Bool.not_eq_true'] at h
    refine ⟨.flat (saveConverter c), ?_, ?_⟩
    · simp [saveEntry, h.1]
    · simp [loadEntry, h.1, loadConverter_saveConverter c h.2]
  | group g =>
    by_cases hk : containsSet k = true
    · simp only [entryOK, hk, Bool.not_true, Bool.false_or,
        List.all_eq_true] at h
      refine ⟨.group (g.map (fun p => (p.1, saveConverter p.2))), ?_, ?_⟩
      · simp [saveEntry, hk]
      · simp only [loadEntry, hk, if_true, List.map_map, Option.some.injEq,
          Entry.group.injEq]
        calc g.map ((fun p => (p.1, loadConverter p.2)) ∘
              (fun p => (p.1, saveConverter p.2)))
            = g.map id := by
              apply List.map_congr_left
              intro p hp
              simp [loadConverter_saveConverter p.2 (h p hp)]
          _ = g := List.map_id g
    · refine ⟨.group g, ?_, ?_⟩
      · simp [saveEntry, hk]
      · simp [loadEntry, hk]

theorem loadBundle_saveAsSparseData (b : Bundle) (h : bundleOK b = true) :
    ∃ s, saveAsSparseData b = some s ∧ loadBundle s = some b := by
  induction b with
  | nil => exact ⟨[], rfl, rfl⟩
  | cons p rest ih =>
    simp only [bundleOK, List.all_cons, Bool.and_eq_true] at h
    obtain ⟨e₂, hs, hl⟩ := loadEntry_saveEntry p.1 p.2 h.1
    obtain ⟨s, hs', hl'⟩ := ih (by simpa [bundleOK] using h.2)
    refine ⟨(p.1, e₂) :: s, ?_, ?_⟩
    · simp only [saveAsSparseData, mapOptList, hs, Option.map_some']
      simp only [saveAsSparseData] at hs'
      rw [hs']
    · simp only [loadBundle, mapOptList, hl, Option.map_some']
      simp only [loadBundle] at hl'
      rw [hl']

/-! ## Helper lemmas: injectivity of joining with the separator -/

/-- A usable path segment: non-empty and free of the separator. -/
def SegOK (s : List Char) : Prop :=
  s ≠ [] ∧ '-' ∉ s

/-- Splitting `a ++ r₁ = b ++ r₂` where `a, b` are separator-free and
each remainder is empty or starts with the separator. -/
theorem seg_split (a : List Char) :
    ∀ (b r₁ r₂ : List Char), '-' ∉ a → '-' ∉ b →
      (r₁ = [] ∨ ∃ t, r₁ = '-' :: t) → (r₂ = [] ∨ ∃ t, r₂ = '-' :: t) →
      a ++ r₁ = b ++ r₂ → a = b ∧ r₁ = r₂ := by
  induction a with
  | nil =>
    intro b r₁ r₂ _ hb h₁ _ heq
    cases b with
    | nil => exact ⟨rfl, heq⟩
    | cons c b' =>
      exfalso
      rcases h₁ with rfl | ⟨t, rfl⟩
      · simp at heq
      · simp only [List.nil_append, List.cons_append, List.cons.injEq] at heq
        apply hb
        rw [heq.1]
        exact List.mem_cons_self c b'
  | cons c a' ih =>
    intro b r₁ r₂ ha hb h₁ h₂ heq
    cases b with
    | nil =>
      exfalso
      rcases h₂ with rfl | ⟨t, rfl⟩
      · simp at heq
      · simp only [List.cons_append, List.nil_append, List.cons.injEq] at heq
        apply ha
        rw [← heq.1]
        exact List.mem_cons_self c a'
    | cons d b' =>
      simp only [List.cons_append, List.cons.injEq] at heq
      have ha' : '-' ∉ a' := fun h => ha (List.mem_cons_of_mem c h)
      have hb' : '-' ∉ b' := fun h => hb (List.mem_cons_of_mem d h)
      obtain ⟨he, hr⟩ := ih b' r₁ r₂ ha' hb' h₁ h₂ heq.2
      exact ⟨by rw [heq.1, he], hr⟩

theorem sepJoin_ne_nil (s : List Char) (t : List (List Char)) (hs : s ≠ []) :
    sepJoin (s :: t) ≠ [] := by
  cases t with
  | nil => simpa [sepJoin]
  | cons s₂ rest => simp [sepJoin, hs]

theorem sepJoin_cons (s : List Char) (t : List (List Char)) :
    sepJoin (s :: t) = s ++ sepRest t := by
  cases t with
  | nil => simp [sepJoin, sepRest]
  | cons s₂ r => simp [sepJoin, sepRest]

theorem sepRest_shape (t : List (List Char)) :
    sepRest t = [] ∨ ∃ u, sepRest t = '-' :: u := by
  cases t with
  | nil => exact Or.inl rfl
  | cons s r => exact Or.inr ⟨sepJoin (s :: r), rfl⟩

theorem sepJoin_inj (l₁ : List (List Char)) :
    ∀ l₂ : List (List Char), (∀ s ∈ l₁, SegOK s) → (∀ s ∈ l₂, SegOK s) →
      sepJoin l₁ = sepJoin l₂ → l₁ = l₂ := by
  induction l₁ with
  | nil =>
    intro l₂ _ h₂ heq
    cases l₂ with
    | nil => rfl
    | cons b t₂ =>
      exact absurd heq.symm
        (sepJoin_ne_nil b t₂ (h₂ b (List.mem_cons_self b t₂)).1)
  | cons a t₁ ih =>
    intro l₂ h₁ h₂ heq
    cases l₂ with
    | nil =>
      exact absurd heq
        (sepJoin_ne_nil a t₁ (h₁ a (List.mem_cons_self a t₁)).1)
    | cons b t₂ =>
      have ha := h₁ a (List.mem_cons_self a t₁)
      have hb := h₂ b (List.mem_cons_self b t₂)
      rw [sepJoin_cons, sepJoin_cons] at heq
      obtain ⟨hab, hrest⟩ := seg_split a _ _ _ ha.2 hb.2
        (sepRest_shape t₁) (sepRest_shape t₂) heq
      have ht : t₁ = t₂ := by
        cases t₁ with
        | nil =>
          cases t₂ with
          | nil => rfl
          | cons s₂ r => simp [sepRest] at hrest
        | cons s₂ r =>
          cases t₂ with
          | nil => simp [sepRest] at hrest
          | cons s₃ r' =>
            simp only [sepRest, List.cons.injEq, true_and] at hrest
            exact ih (s₃ :: r')
              (fun s hs => h₁ s (List.mem_cons_of_mem a hs))
              (fun s hs => h₂ s (List.mem_cons_of_mem b hs)) hrest
      rw [hab, ht]

/-- String-level corollary: `"-".join` is injective on lists of
non-empty separator-free segments. -/
theorem joinWithDash_inj (l₁ l₂ : List String)
    (h₁ : ∀ s ∈ l₁, s ≠ "" ∧ '-' ∉ s.data)
    (h₂ : ∀ s ∈ l₂, s ≠ "" ∧ '-' ∉ s.data)
    (heq : joinWithDash l₁ = joinWithDash l₂) : l₁ = l₂ := by
  have hdata : sepJoin (l₁.map String.data) = sepJoin (l₂.map String.data) := by
    have := congrArg String.data heq
    simpa [joinWithDash] using this
  have hseg : ∀ (l : List String), (∀ s ∈ l, s ≠ "" ∧ '-' ∉ s.data) →
      ∀ s ∈ l.map String.data, SegOK s := by
    intro l hl s hs
    obtain ⟨t, ht, rfl⟩ := List.mem_map.mp hs
    refine ⟨?_, (hl t ht).2⟩
    intro hnil
    exact (hl t ht).1 (by cases t; simpa using congrArg String.mk hnil)
  have := sepJoin_inj (l₁.map String.data) (l₂.map String.data)
    (hseg l₁ h₁) (hseg l₂ h₂) hdata
  have hinj : Function.Injective String.data := by
    intro s t h
    cases s; cases t; exact congrArg String.mk h
  exact List.map_injective_iff.mpr hinj this

/-- Length of a joined list: one separator between consecutive segments. -/
theorem sepJoin_length (l : List (List Char)) (h : l ≠ []) :
    (sepJoin l).length + 1 = (l.map List.length).sum + l.length := by
  induction l with
  | nil => exact absurd rfl h
  | cons s t ih =>
    cases t with
    | nil => simp [sepJoin]
    | cons s₂ r =>
      have := ih (by simp)
      simp only [sepJoin, List.map_cons, List.sum_cons, List.length_cons,
        List.length_append] at *
      omega

theorem sepJoin_append (A B : List (List Char)) (hA : A ≠ []) (hB : B ≠ []) :
    sepJoin (A ++ B) = sepJoin A ++ '-' :: sepJoin B := by
  induction A with
  | nil => exact absurd rfl hA
  | cons a t ih =>
    cases t with
    | nil =>
      cases B with
      | nil => exact absurd rfl hB
      | cons b r => simp [sepJoin]
    | cons a₂ t' =>
      have ihh := ih (by simp)
      have h₁ : (a :: a₂ :: t') ++ B = a :: ((a₂ :: t') ++ B) := by simp
      have h₂ : (a₂ :: t') ++ B = a₂ :: (t' ++ B) := by simp
      rw [h₁, sepJoin_cons, h₂]
      rw [show sepRest (a₂ :: (t' ++ B)) = '-' :: sepJoin (a₂ :: (t' ++ B))
        from rfl]
      rw [← h₂, ihh, sepJoin_cons]
      rw [sepJoin_cons a (a₂ :: t')]
      rw [show sepRest (a₂ :: t') = '-' :: sepJoin (a₂ :: t') from rfl,
        sepJoin_cons a₂ t']
      simp [List.append_assoc]

/-- Permutation-invariance of the joined length. -/
theorem sepJoin_length_perm (m₁ m₂ : List (List Char)) (hp : m₁.Perm m₂)
    (h₁ : m₁ ≠ []) : (sepJoin m₁).length = (sepJoin m₂).length := by
  have h₂ : m₂ ≠ [] := by
    intro h
    subst h
    exact h₁ hp.eq_nil
  have e₁ := sepJoin_length m₁ h₁
  have e₂ := sepJoin_length m₂ h₂
  have hsum : (m₁.map List.length).sum = (m₂.map List.length).sum :=
    (hp.map List.length).sum_eq
  have hlen : m₁.length = m₂.length := hp.length_eq
  omega

/-- Cancelling a common prefix and suffix in a join: the middle segment
lists agree when they are separator-free, non-empty segments of equal
joined length. -/
theorem sepJoin_middle_inj (A B m₁ m₂ : List (List Char)) (hA : A ≠ [])
    (h₁ : ∀ s ∈ m₁, SegOK s) (h₂ : ∀ s ∈ m₂, SegOK s) (hp : m₁.Perm m₂)
    (heq : sepJoin (A ++ (m₁ ++ B)) = sepJoin (A ++ (m₂ ++ B))) :
    m₁ = m₂ := by
  cases m₁ with
  | nil => exact (hp.nil_eq).symm ▸ rfl
  | cons s₁ t₁ =>
    have hm₁ : (s₁ :: t₁ : List (List Char)) ≠ [] := by simp
    have hm₂ : m₂ ≠ [] := by
      intro h
      subst h
      exact hm₁ hp.eq_nil
    have hmb₁ : (s₁ :: t₁) ++ B ≠ [] := by simp
    have hmb₂ : m₂ ++ B ≠ [] := by
      intro h
      exact hm₂ (List.append_eq_nil.mp h).1
    rw [sepJoin_append A _ hA hmb₁, sepJoin_append A _ hA hmb₂] at heq
    have heq₂ : sepJoin ((s₁ :: t₁) ++ B) = sepJoin (m₂ ++ B) := by
      have := List.append_cancel_left heq
      simpa using this
    have hlen : (sepJoin (s₁ :: t₁)).length = (sepJoin m₂).length :=
      sepJoin_length_perm _ _ hp hm₁
    cases hB : B with
    | nil =>
      subst hB
      simp only [List.append_nil] at heq₂
      exact sepJoin_inj _ _ h₁ h₂ heq₂
    | cons b r =>
      subst hB
      rw [sepJoin_append _ _ hm₁ (by simp), sepJoin_append _ _ hm₂ (by simp)]
        at heq₂
      have := (List.append_inj heq₂ hlen).1
      exact sepJoin_inj _ _ h₁ h₂ this

/-! ## Helper lemmas: segments of the valid configuration surface -/

theorem baseSeg_ok : ∀ n : DatasetName, baseSeg n ≠ "" ∧ '-' ∉ (baseSeg n).data := by
  decide

theorem baseSeg_inj : ∀ n₁ n₂ : DatasetName, baseSeg n₁ = baseSeg n₂ → n₁ = n₂ := by
  decide

theorem fsTag_ok : ∀ a : FeatureSel,
    normaliseString (featureSelStr a) ≠ "" ∧
      '-' ∉ (normaliseString (featureSelStr a)).data := by
  decide

theorem fsTag_inj : ∀ a b : FeatureSel,
    normaliseString (featureSelStr a) = normaliseString (featureSelStr b) →
      a = b := by
  decide

theorem pTag_ok : ∀ p : PMethod,
    normaliseString (pMethodStr p) ≠ "" ∧
      '-' ∉ (normaliseString (pMethodStr p)).data := by
  decide

theorem pTag_inj : ∀ a b : PMethod,
    normaliseString (pMethodStr a) = normaliseString (pMethodStr b) → a = b := by
  decide

theorem pTag_ne_split : ∀ p : PMethod, normaliseString (pMethodStr p) ≠ "split" := by
  decide

theorem fsTag_ne_split : ∀ a : FeatureSel,
    normaliseString (featureSelStr a) ≠ "split" := by
  decide

theorem fsTag_ne_pTag : ∀ (a : FeatureSel) (p : PMethod),
    normaliseString (featureSelStr a) ≠ normaliseString (pMethodStr p) := by
  decide

theorem sTag_ok : ∀ s : SMethod,
    normaliseString (sMethodStr s) ≠ "" ∧
      '-' ∉ (normaliseString (sMethodStr s)).data := by
  decide

theorem sTag_inj : ∀ s₁ s₂ : SMethod,
    normaliseString (sMethodStr s₁) = normaliseString (sMethodStr s₂) →
      s₁ = s₂ := by
  decide

/-- `dataSetSplitPath` in flat-segment form. -/
theorem dataSetSplitPath_eq (c : SplitCacheConfig) :
    dataSetSplitPath c = joinWithDash (splitSegList c) ++ preprocessed_extension := by
  obtain ⟨n, fs, pp, sm, f⟩ := c
  have hsm : sMethodStr sm ≠ "" := by cases sm <;> decide
  simp only [dataSetSplitPath, preprocessedPath, splitSegList, baseSeg,
    optPart, List.append_assoc, hsm, if_neg hsm]
  rfl

/-- Parsing the suffix `pp ++ ["split", smTag, frac]` of a segment list. -/
theorem parse_tail (pp₁ : List PMethod) :
    ∀ (pp₂ : List PMethod) (x₁ x₂ : SMethod) (f₁ f₂ : String),
      pp₁.map (fun p => normaliseString (pMethodStr p)) ++
          ["split", normaliseString (sMethodStr x₁), f₁]
        = pp₂.map (fun p => normaliseString (pMethodStr p)) ++
          ["split", normaliseString (sMethodStr x₂), f₂] →
      pp₁ = pp₂ ∧ x₁ = x₂ ∧ f₁ = f₂ := by
  induction pp₁ with
  | nil =>
    intro pp₂ x₁ x₂ f₁ f₂ heq
    cases pp₂ with
    | nil =>
      simp only [List.map_nil, List.nil_append, List.cons.injEq] at heq
      exact ⟨rfl, sTag_inj x₁ x₂ heq.2.1, by simpa using heq.2.2⟩
    | cons p t =>
      exfalso
      simp only [List.map_nil, List.map_cons, List.nil_append,
        List.cons_append, List.cons.injEq] at heq
      exact pTag_ne_split p heq.1.symm
  | cons a t₁ ih =>
    intro pp₂ x₁ x₂ f₁ f₂ heq
    cases pp₂ with
    | nil =>
      exfalso
      simp only [List.map_nil, List.map_cons, List.nil_append,
        List.cons_append, List.cons.injEq] at heq
      exact pTag_ne_split a heq.1
    | cons b t₂ =>
      simp only [List.map_cons, List.cons_append, List.cons.injEq] at heq
      obtain ⟨h₁, h₂, h₃⟩ := ih t₂ x₁ x₂ f₁ f₂ heq.2
      exact ⟨by rw [pTag_inj a b heq.1, h₁], h₂, h₃⟩

/-- Parsing the optional feature-selection segment in front of the
preprocessing/split suffix. -/
theorem parse_fs (o₁ o₂ : Option FeatureSel) (pp₁ pp₂ : List PMethod)
    (x₁ x₂ : SMethod) (f₁ f₂ : String)
    (heq : optPart (o₁.map featureSelStr) ++
        (pp₁.map (fun p => normaliseString (pMethodStr p)) ++
          ["split", normaliseString (sMethodStr x₁), f₁])
      = optPart (o₂.map featureSelStr) ++
        (pp₂.map (fun p => normaliseString (pMethodStr p)) ++
          ["split", normaliseString (sMethodStr x₂), f₂])) :
    o₁ = o₂ ∧ pp₁ = pp₂ ∧ x₁ = x₂ ∧ f₁ = f₂ := by
  have hfs : ∀ a : FeatureSel, optPart (some (featureSelStr a))
      = [normaliseString (featureSelStr a)] := by
    intro a
    cases a <;> rfl
  have hhead : ∀ (a : FeatureSel) (pp : List PMethod) (x : SMethod)
      (f : String) (r : List String),
      normaliseString (featureSelStr a) :: r
        ≠ pp.map (fun p => normaliseString (pMethodStr p)) ++
            ["split", normaliseString (sMethodStr x), f] := by
    intro a pp x f r h
    cases pp with
    | nil =>
      simp only [List.map_nil, List.nil_append, List.cons.injEq] at h
      exact fsTag_ne_split a h.1
    | cons p t =>
      simp only [List.map_cons, List.cons_append, List.cons.injEq] at h
      exact fsTag_ne_pTag a p h.1
  cases o₁ with
  | none =>
    cases o₂ with
    | none =>
      simp only [Option.map_none', optPart, List.nil_append] at heq
      exact ⟨rfl, parse_tail pp₁ pp₂ x₁ x₂ f₁ f₂ heq⟩
    | some b =>
      exfalso
      rw [Option.map_none', Option.map_some', hfs b] at heq
      simp only [optPart, List.nil_append, List.cons_append] at heq
      exact hhead b pp₁ x₁ f₁ _ heq.symm
  | some a =>
    cases o₂ with
    | none =>
      exfalso
      rw [Option.map_some', Option.map_none', hfs a] at heq
      simp only [optPart, List.nil_append, List.cons_append] at heq
      exact hhead a pp₂ x₂ f₂ _ heq
    | some b =>
      rw [Option.map_some', Option.map_some', hfs a, hfs b] at heq
      simp only [List.cons_append, List.nil_append, List.cons.injEq] at heq
      obtain ⟨h₁, h₂, h₃⟩ := parse_tail pp₁ pp₂ x₁ x₂ f₁ f₂ heq.2
      exact ⟨by rw [fsTag_inj a b heq.1], h₁, h₂, h₃⟩

/-- `numpy.clip(x, epsilon, x)` — with the value itself as upper bound —
returns the value unchanged: the clip line of `computeGiniIndices` is a
no-op. -/
theorem npClip_self (x e : ℚ) : npClip x e x = x :=
  min_eq_left (le_max_left x e)

/-! ## Claim theorems -/

/-- C1: saving a bundle holding a dense numeric 2-D array with the
sparse store and loading it back returns the bundle unchanged — dense
arrays round-trip through the CSR encoding element-wise exactly, and
1-D vectors and non-numeric containers pass through unchanged. -/
theorem sparse_store_roundTrip (b : Bundle) (h : bundleOK b = true) :
    ∃ s, saveAsSparseData b = some s ∧ loadFromSparseData (.stored s) = .ok b := by
  obtain ⟨s, hs, hl⟩ := loadBundle_saveAsSparseData b h
  exact ⟨s, hs, by simp [loadFromSparseData, hl]⟩

/-- Witness for C1 at the spec's own example `{"x": [[0,1],[2,0],[0,0]]}`
together with a 1-D vector and a string container. -/
theorem sparse_store_roundTrip_witness :
    bundleOK [("x", .flat (.dense2 [[0,1],[2,0],[0,0]])),
      ("labels", .flat (.vec1 [5,7,9])),
      ("feature names", .flat (.strVec ["a","b"]))] = true
    ∧ ∃ s, saveAsSparseData [("x", .flat (.dense2 [[0,1],[2,0],[0,0]])),
        ("labels", .flat (.vec1 [5,7,9])),
        ("feature names", .flat (.strVec ["a","b"]))] = some s
      ∧ loadFromSparseData (.stored s)
        = .ok [("x", .flat (.dense2 [[0,1],[2,0],[0,0]])),
            ("labels", .flat (.vec1 [5,7,9])),
            ("feature names", .flat (.strVec ["a","b"]))] :=
  ⟨by decide, sparse_store_roundTrip _ (by decide)⟩

/-- C2 counterexample: a corrupt cache file makes the caller skeleton
(`if isfile: load else: compute-and-save`, with no exception handler)
return the `CacheCorrupt` failure instead of the recomputed bundle, so
corruption is *not* treated like a cache miss. -/
theorem corrupt_cache_propagates_cex :
    cacheOrCompute (some .corrupt) [("values", .flat (.dense2 [[1]]))]
        = .error .CacheCorrupt
    ∧ cacheOrCompute (some .corrupt) [("values", .flat (.dense2 [[1]]))]
        ≠ .ok [("values", .flat (.dense2 [[1]]))] := by
  exact ⟨rfl, by simp [cacheOrCompute, loadFromSparseData]⟩

/-- C2 (amended): `loadFromSparseData` fails with `CacheCorrupt` when the
stored content cannot be decoded, and the callers (`DataSet.load`,
`preprocess`, `split` — they share the skeleton `cacheOrCompute`)
propagate that failure; only a *missing* cache file is treated as a miss
(recompute, then overwrite). -/
theorem corrupt_cache_behavior (fresh : Bundle) :
    loadFromSparseData .corrupt = .error .CacheCorrupt
    ∧ cacheOrCompute (some .corrupt) fresh = .error .CacheCorrupt
    ∧ cacheOrCompute none fresh = .ok fresh :=
  ⟨rfl, rfl, rfl⟩

/-- C5 (code bug): `preprocessValues` builds its `gini`/`idf` closures
with `lambda x: applyWeights(x, preprocessing_method, ...)`, closing over
the loop variable by reference; at application time every weight closure
sees the *last* method of the list instead of its own.  For
`["gini", "binarise"]` the gini step calls `applyWeights(x, "binarise")`,
which leaves `weights` unbound and raises (modelled as `none`), while
the documented per-method behaviour (`preprocessValuesSpec`) applies the
gini weights and then binarises. -/
theorem preprocessValues_lateBinding_bug (ext : Externals) :
    preprocessValues ext [[1,0],[0,1]] ["gini", "binarise"] = none
    ∧ preprocessValuesSpec ext [[1,0],[0,1]] ["gini", "binarise"]
        = some [[1,0],[0,1]] := by
  refine ⟨rfl, ?_⟩
  norm_num [preprocessValuesSpec, applyWeights, loadWeights, mulColumns,
    binariseM, computeGiniIndices, colsOf, ncols, npClip, giniEpsilon,
    indexVector, dotQ, sortAsc, insertAsc, List.getD, List.get?,
    eq_false (show ¬ ("gini" : String) = "binarise" by decide),
    eq_false (show ¬ ("binarise" : String) = "gini" by decide),
    eq_false (show ¬ ("binarise" : String) = "idf" by decide),
    show List.range 2 = [0,1] from rfl]

/-- C6 (code bug): the clip line `numpy.clip(data, epsilon, data)` of
`computeGiniIndices` uses the data itself as upper bound and therefore
never clips — a zero entry stays zero, contradicting the claimed
"clip all entries to be ≥ epsilon" (and the code's own comment
"Values cannot be 0").  On `[[0],[1]]` the code yields `1/2`, the
clipping version `(1-ε)/(1+ε)/2`; on the constant column `[1,1,1,1]`
both yield exactly `0`. -/
theorem computeGini_clip_noop :
    computeGiniIndices [[0],[1]] = [1/2]
    ∧ computeGiniIndicesSpec [[0],[1]]
        = [(1 - giniEpsilon) / (1 + giniEpsilon) / 2]
    ∧ computeGiniIndices [[0],[1]] ≠ computeGiniIndicesSpec [[0],[1]]
    ∧ computeGiniIndices [[1],[1],[1],[1]] = [0]
    ∧ computeGiniIndicesSpec [[1],[1],[1],[1]] = [0] := by
  have h₁ : computeGiniIndices [[0],[1]] = [1/2] := by
    norm_num [computeGiniIndices, colsOf, ncols, npClip, giniEpsilon,
      indexVector, dotQ, sortAsc, insertAsc, List.getD, List.get?,
      show List.range 1 = [0] from rfl, show List.range 2 = [0,1] from rfl]
  have h₂ : computeGiniIndicesSpec [[0],[1]]
      = [(1 - giniEpsilon) / (1 + giniEpsilon) / 2] := by
    norm_num [computeGiniIndicesSpec, colsOf, ncols, giniEpsilon,
      indexVector, dotQ, sortAsc, insertAsc, List.getD, List.get?,
      show List.range 1 = [0] from rfl, show List.range 2 = [0,1] from rfl]
  refine ⟨h₁, h₂, ?_, ?_, ?_⟩
  · rw [h₁, h₂]
    norm_num [giniEpsilon]
  · norm_num [computeGiniIndices, colsOf, ncols, npClip, giniEpsilon,
      indexVector, dotQ, sortAsc, insertAsc, List.getD, List.get?,
      show List.range 1 = [0] from rfl, show List.range 4 = [0,1,2,3] from rfl]
  · norm_num [computeGiniIndicesSpec, colsOf, ncols, giniEpsilon,
      indexVector, dotQ, sortAsc, insertAsc, List.getD, List.get?,
      show List.range 1 = [0] from rfl, show List.range 4 = [0,1,2,3] from rfl]

/-- C7 counterexample: `DataSet.update` never checks the labels length.
A loader bundle with 2 rows, 2 example names, 1 feature name but 3
labels passes the shape checks of `DataSet.load` even though
rows(values), len(exampleNames) and len(labels) are not all equal. -/
theorem update_labels_unchecked_cex :
    loadBundleCheck ⟨[[1],[2]], ["x","y","z"], ["a","b"], ["f1"]⟩ = true
    ∧ (LoaderBundle.labels ⟨[[1],[2]], ["x","y","z"], ["a","b"], ["f1"]⟩).length
      ≠ ([[1],[2]] : List (List ℚ)).length := by
  exact ⟨by decide, by decide⟩

/-- C7 (amended): on a raw-loader bundle, `DataSet.load` fails (an
assertion in `update` fires, surfaced immediately as the
dimension-mismatch failure) exactly when the example-name count differs
from the row count or the feature-name count differs from the column
count; the labels length is not validated. -/
theorem update_asserts_iff (b : LoaderBundle) :
    loadBundleCheck b = false ↔
      (b.exampleNames.length ≠ b.values.length
       ∨ b.featureNames.length ≠ ncols b.values) := by
  by_cases h₁ : b.exampleNames.length = b.values.length <;>
    by_cases h₂ : b.featureNames.length = ncols b.values <;>
      simp [loadBundleCheck, updateAsserts, h₁, h₂]

/-- C8 (code bug): the vocabulary of `createBagOfWords` is
`list(set_of_stems)` — the column order is the hash-backed set's
enumeration order, a property of the runtime rather than of the corpus.
Two enumeration orders of the *same* distinct-stem set (the identity
order and its reverse, both permutations of the collected set) give
different `featureNames` and different count matrices on the corpus
`["cat dog", "dog bird"]`. -/
theorem bagOfWords_order_dependent :
    (List.reverse (distinctList ((["cat dog", "dog bird"].map
        (findWords id)).flatten))).Perm
      (distinctList ((["cat dog", "dog bird"].map (findWords id)).flatten))
    ∧ (createBagOfWords id id ["cat dog", "dog bird"]).2
      ≠ (createBagOfWords id List.reverse ["cat dog", "dog bird"]).2
    ∧ (createBagOfWords id id ["cat dog", "dog bird"]).1
      ≠ (createBagOfWords id List.reverse ["cat dog", "dog bird"]).1 := by
  exact ⟨by decide, by decide, by decide⟩

/-- C10: the sparse store decides flat-versus-group purely by whether
the key contains the substring `"set"`: a non-`"set"` key gets the
dense/sparse converter applied to its value directly (a nested mapping
passes through unchanged there), a `"set"` key is traversed as a mapping
one level deep with the converter applied to its members, and a flat 2-D
array under a `"set"` key is never itself converted (the traversal
fails); load applies the inverse converter under the same dispatch. -/
theorem sparse_store_set_dispatch :
    (∀ (k : String) (c : Container), containsSet k = false →
       saveEntry k (.flat c) = some (.flat (saveConverter c))
       ∧ loadEntry k (.flat c) = some (.flat (loadConverter c)))
    ∧ (∀ (k : String) (g : List (String × Container)), containsSet k = false →
       saveEntry k (.group g) = some (.group g)
       ∧ loadEntry k (.group g) = some (.group g))
    ∧ (∀ (k : String) (g : List (String × Container)), containsSet k = true →
       saveEntry k (.group g)
           = some (.group (g.map (fun p => (p.1, saveConverter p.2))))
       ∧ loadEntry k (.group g)
           = some (.group (g.map (fun p => (p.1, loadConverter p.2)))))
    ∧ (∀ (k : String) (m : List (List ℚ)), containsSet k = true →
       saveEntry k (.flat (.dense2 m)) = none)
    ∧ (∀ (k : String) (s : CSRMat), containsSet k = true →
       loadEntry k (.flat (.sparse s)) = none) := by
  refine ⟨?_, ?_, ?_, ?_, ?_⟩ <;> intro k x h <;>
    simp [saveEntry, loadEntry, h]

/-- Witness for C10 at the keys `"values"` and `"training set"`. -/
theorem sparse_store_set_dispatch_witness :
    (saveEntry "values" (.flat (.dense2 [[1,0]]))
        = some (.flat (saveConverter (.dense2 [[1,0]])))
      ∧ loadEntry "values" (.flat (.dense2 [[1,0]]))
        = some (.flat (loadConverter (.dense2 [[1,0]]))))
    ∧ (saveEntry "training set" (.group [("values", .dense2 [[1,0]])])
        = some (.group [("values", saveConverter (.dense2 [[1,0]]))]))
    ∧ saveEntry "training set" (.flat (.dense2 [[1,0]])) = none
    ∧ loadEntry "training set" (.flat (.sparse ⟨[[(0,1)]], 2⟩)) = none :=
  ⟨sparse_store_set_dispatch.1 "values" _ (by decide),
   (sparse_store_set_dispatch.2.2.1 "training set"
      [("values", .dense2 [[1,0]])] (by decide)).1,
   sparse_store_set_dispatch.2.2.2.1 "training set" [[1,0]] (by decide),
   sparse_store_set_dispatch.2.2.2.2 "training set" ⟨[[(0,1)]], 2⟩ (by decide)⟩

/-- C4: for a seeded permutation `shuffled` of `0..M-1` (numpy's
`permutation(M)` under `seed(42)` — deterministic by numpy's contract,
supplied here as the input), the `random` splitter takes
`trainValCount = ⌊fraction * M⌋` and `trainCount = ⌊fraction *
trainValCount⌋` (the nonnegative `int(...)` truncations), assigns the
first `trainCount` permuted indices to training, the next
`trainValCount - trainCount` to validation and the rest to test; the
three lists concatenate back to the permutation, so they partition
`0..M-1` with no overlap and full coverage. -/
theorem splitDataSetRandom_spec (M : ℕ) (f : ℚ) (sh : List ℕ)
    (hperm : sh.Perm (List.range M)) (_h0 : 0 ≤ f) (h1 : f ≤ 1) :
    (splitDataSetRandom sh f).1 ++ (splitDataSetRandom sh f).2.1
        ++ (splitDataSetRandom sh f).2.2 = sh
    ∧ (splitDataSetRandom sh f).1.length
        = (⌊f * (((⌊f * (M:ℚ)⌋).toNat : ℕ) : ℚ)⌋).toNat
    ∧ (splitDataSetRandom sh f).2.1.length
        = (⌊f * (M:ℚ)⌋).toNat - (⌊f * (((⌊f * (M:ℚ)⌋).toNat : ℕ) : ℚ)⌋).toNat
    ∧ (splitDataSetRandom sh f).2.2.length = M - (⌊f * (M:ℚ)⌋).toNat
    ∧ ((splitDataSetRandom sh f).1 ++ (splitDataSetRandom sh f).2.1
        ++ (splitDataSetRandom sh f).2.2).Perm (List.range M)
    ∧ (splitDataSetRandom sh f).1.Disjoint (splitDataSetRandom sh f).2.1
    ∧ (splitDataSetRandom sh f).1.Disjoint (splitDataSetRandom sh f).2.2
    ∧ (splitDataSetRandom sh f).2.1.Disjoint (splitDataSetRandom sh f).2.2 := by
  have hM : sh.length = M := by simpa using hperm.length_eq
  have htoNat : ∀ (K : ℕ), (⌊f * (K:ℚ)⌋).toNat ≤ K := by
    intro K
    have hfK : f * (K:ℚ) ≤ (K:ℚ) := by
      calc f * (K:ℚ) ≤ 1 * (K:ℚ) :=
            mul_le_mul_of_nonneg_right h1 (by positivity)
        _ = (K:ℚ) := one_mul _
    have hfl := Int.floor_le_floor hfK
    rw [Int.floor_natCast] at hfl
    exact Int.toNat_le.mpr hfl
  have hsplit : splitDataSetRandom sh f
      = (sh.take ((⌊f * (((⌊f * (M:ℚ)⌋).toNat : ℕ) : ℚ)⌋).toNat),
         (sh.drop ((⌊f * (((⌊f * (M:ℚ)⌋).toNat : ℕ) : ℚ)⌋).toNat)).take
           ((⌊f * (M:ℚ)⌋).toNat
             - (⌊f * (((⌊f * (M:ℚ)⌋).toNat : ℕ) : ℚ)⌋).toNat),
         sh.drop ((⌊f * (M:ℚ)⌋).toNat)) := by
    simp only [splitDataSetRandom, hM]
  rw [hsplit]
  simp only
  set Mtv := (⌊f * (M:ℚ)⌋).toNat with hMtv
  set Mt := (⌊f * ((Mtv : ℕ) : ℚ)⌋).toNat with hMt
  have hMtvM : Mtv ≤ M := htoNat M
  have hMtMtv : Mt ≤ Mtv := htoNat Mtv
  have hconc : sh.take Mt ++ (sh.drop Mt).take (Mtv - Mt) ++ sh.drop Mtv
      = sh := by
    have hd : sh.drop Mtv = ((sh.drop Mt).drop (Mtv - Mt)) := by
      rw [List.drop_drop]
      congr 1
      omega
    rw [hd, List.append_assoc, List.take_append_drop, List.take_append_drop]
  refine ⟨hconc, ?_, ?_, ?_, ?_, ?_, ?_, ?_⟩
  · rw [List.length_take]
    omega
  · rw [List.length_take, List.length_drop]
    omega
  · rw [List.length_drop]
    omega
  · rw [hconc]
    exact hperm
  all_goals
    have hnd : (sh.take Mt ++ ((sh.drop Mt).take (Mtv - Mt)
        ++ sh.drop Mtv)).Nodup := by
      rw [← List.append_assoc, hconc]
      exact hperm.nodup_iff.mpr (List.nodup_range M)
  · have := List.disjoint_of_nodup_append hnd
    intro a ha hb
    exact this ha (List.mem_append_left _ hb)
  · have := List.disjoint_of_nodup_append hnd
    intro a ha hb
    exact this ha (List.mem_append_right _ hb)
  · have hnd₂ := hnd.of_append_right
    exact List.disjoint_of_nodup_append hnd₂

/-- Witness for C4 at `M = 100`, `fraction = 9/10` with the identity
permutation: sizes 81/9/10 and full disjoint coverage of `0..99`. -/
theorem splitDataSetRandom_witness :
    (List.range 100).Perm (List.range 100)
    ∧ (splitDataSetRandom (List.range 100) (9/10)).1.length = 81
    ∧ (splitDataSetRandom (List.range 100) (9/10)).2.1.length = 9
    ∧ (splitDataSetRandom (List.range 100) (9/10)).2.2.length = 10
    ∧ ((splitDataSetRandom (List.range 100) (9/10)).1
        ++ (splitDataSetRandom (List.range 100) (9/10)).2.1
        ++ (splitDataSetRandom (List.range 100) (9/10)).2.2).Perm
          (List.range 100) := by
  have h := splitDataSetRandom_spec 100 (9/10) (List.range 100)
    (List.Perm.refl _) (by norm_num) (by norm_num)
  have e₁ : ((⌊(9/10 : ℚ) * ((100:ℕ) : ℚ)⌋).toNat) = 90 := by
    norm_num
    rfl
  have e₂ : ((⌊(9/10 : ℚ) * (((⌊(9/10 : ℚ) * ((100:ℕ) : ℚ)⌋).toNat : ℕ) : ℚ)⌋).toNat)
      = 81 := by
    rw [e₁]
    norm_num
    rfl
  refine ⟨List.Perm.refl _, ?_, ?_, ?_, h.2.2.2.2.1⟩
  · rw [h.2.1, e₂]
  · rw [h.2.2.1, e₂, e₁]
  · rw [h.2.2.2.1, e₁]

/-- A non-empty separator-free string has a `SegOK` character list. -/
theorem segOK_of_str (s : String) (h : s ≠ "" ∧ '-' ∉ s.data) :
    SegOK s.data :=
  ⟨fun hnil => h.1 (by cases s; simpa using congrArg String.mk hnil), h.2⟩

theorem pTagData_inj : ∀ a b : PMethod,
    (normaliseString (pMethodStr a)).data = (normaliseString (pMethodStr b)).data
      → a = b := by
  decide

/-- The builder emits exactly the §4.1 segment list joined with the
separator plus the fixed extension. -/
theorem preprocessedPath_eq_segments (dir name : String) (bn : Option String)
    (pm : List String) (fsel sm sf : Option String) :
    preprocessedPath dir name bn pm fsel sm sf
      = joinWithDash (cacheKeySegmentsSpec dir name bn pm fsel sm sf)
          ++ preprocessed_extension := by
  simp [preprocessedPath, cacheKeySegmentsSpec, List.append_assoc]

/-- Reordering a valid preprocessing-method list changes the path. -/
theorem preprocessedPath_pp_order (dir name : String)
    (bn fsel sm sf : Option String) (pp₁ pp₂ : List PMethod)
    (hperm : pp₁.Perm pp₂) (hne : pp₁ ≠ pp₂) :
    preprocessedPath dir name bn (pp₁.map pMethodStr) fsel sm sf
      ≠ preprocessedPath dir name bn (pp₂.map pMethodStr) fsel sm sf := by
  intro heq
  apply hne
  rw [preprocessedPath_eq_segments, preprocessedPath_eq_segments] at heq
  have hd := congrArg String.data heq
  rw [String.data_append, String.data_append] at hd
  have hchar₀ := List.append_cancel_right hd
  have hchar : sepJoin ((cacheKeySegmentsSpec dir name bn
        (List.map pMethodStr pp₁) fsel sm sf).map String.data)
      = sepJoin ((cacheKeySegmentsSpec dir name bn
        (List.map pMethodStr pp₂) fsel sm sf).map String.data) := hchar₀
  have hshape : ∀ pp : List PMethod,
      ((cacheKeySegmentsSpec dir name bn (pp.map pMethodStr) fsel sm sf).map
          String.data)
        = (([osJoin dir name] ++ optPart bn ++ optPart fsel).map String.data)
          ++ ((pp.map (fun p => (normaliseString (pMethodStr p)).data))
            ++ ((match sm with
                 | none => []
                 | some m =>
                    if m = "" then [] else
                      ["split", normaliseString m] ++
                        (match sf with
                         | none => []
                         | some f => if f = "" then [] else [f])).map
              String.data)) := by
    intro pp
    simp [cacheKeySegmentsSpec, List.map_append, List.append_assoc,
      List.map_map, Function.comp]
  rw [hshape, hshape] at hchar
  have hmid := sepJoin_middle_inj _ _ _ _ (by simp)
    (by
      intro s hs
      obtain ⟨p, _, rfl⟩ := List.mem_map.mp hs
      exact segOK_of_str _ (pTag_ok p))
    (by
      intro s hs
      obtain ⟨p, _, rfl⟩ := List.mem_map.mp hs
      exact segOK_of_str _ (pTag_ok p))
    (hperm.map _) hchar
  exact List.map_injective_iff.mpr
    (fun a b hab => pTagData_inj a b hab) hmid

/-- C3: the cache-key builder emits the present components in the fixed
order — base path, suffix, feature-selection tag, preprocessing tags in
caller order, the literal `split`, the split-method tag, the fraction's
string form — joined by the separator with the fixed extension (absent
components are simply omitted, so no placeholder text appears), and two
configurations differing only in the order of a valid preprocessing list
map to different paths. -/
theorem cacheKey_order_spec :
    (∀ (dir name : String) (bn : Option String) (pm : List String)
       (fsel sm sf : Option String),
       preprocessedPath dir name bn pm fsel sm sf
         = joinWithDash (cacheKeySegmentsSpec dir name bn pm fsel sm sf)
             ++ preprocessed_extension)
    ∧ (∀ (dir name : String) (bn fsel sm sf : Option String)
       (pp₁ pp₂ : List PMethod), pp₁.Perm pp₂ → pp₁ ≠ pp₂ →
       preprocessedPath dir name bn (pp₁.map pMethodStr) fsel sm sf
         ≠ preprocessedPath dir name bn (pp₂.map pMethodStr) fsel sm sf) :=
  ⟨preprocessedPath_eq_segments,
   fun dir name bn fsel sm sf pp₁ pp₂ hp hne =>
     preprocessedPath_pp_order dir name bn fsel sm sf pp₁ pp₂ hp hne⟩

/-- Witness for C3: the layout equation at a concrete full
configuration, and `gini,idf` versus `idf,gini` giving different paths. -/
theorem cacheKey_order_spec_witness :
    (preprocessedPath "data/mnist/preprocessed" "mnist" none
        ["gini", "idf"] (some "remove zeros") (some "random") (some "0.9")
      = joinWithDash (cacheKeySegmentsSpec "data/mnist/preprocessed" "mnist"
          none ["gini", "idf"] (some "remove zeros") (some "random")
          (some "0.9")) ++ preprocessed_extension)
    ∧ ([PMethod.gini, PMethod.idf].Perm [PMethod.idf, PMethod.gini]
       ∧ [PMethod.gini, PMethod.idf] ≠ [PMethod.idf, PMethod.gini])
    ∧ preprocessedPath "data/mnist/preprocessed" "mnist" none
        ([PMethod.gini, PMethod.idf].map pMethodStr) none (some "random")
        (some "0.9")
      ≠ preprocessedPath "data/mnist/preprocessed" "mnist" none
        ([PMethod.idf, PMethod.gini].map pMethodStr) none (some "random")
        (some "0.9") :=
  ⟨cacheKey_order_spec.1 "data/mnist/preprocessed" "mnist" none
      ["gini", "idf"] (some "remove zeros") (some "random") (some "0.9"),
   ⟨by decide, by decide⟩,
   cacheKey_order_spec.2 "data/mnist/preprocessed" "mnist" none none
      (some "random") (some "0.9") [PMethod.gini, PMethod.idf]
      [PMethod.idf, PMethod.gini] (by decide) (by decide)⟩

theorem optPart_featureSel (a : FeatureSel) :
    optPart (some (featureSelStr a)) = [normaliseString (featureSelStr a)] := by
  cases a <;> rfl

/-- Predicate pushing through a list append. -/
theorem forall_mem_append_of {α : Type} {P : α → Prop} (l₁ l₂ : List α)
    (h₁ : ∀ s ∈ l₁, P s) (h₂ : ∀ s ∈ l₂, P s) : ∀ s ∈ l₁ ++ l₂, P s :=
  fun s hs => (List.mem_append.mp hs).elim (h₁ s) (h₂ s)

/-- Every segment of a valid split configuration's segment list is
non-empty and separator-free. -/
theorem splitSegList_ok (c : SplitCacheConfig)
    (hf : fractionStrOK c.fractionStr) :
    ∀ s ∈ splitSegList c, s ≠ "" ∧ '-' ∉ s.data := by
  unfold splitSegList
  refine forall_mem_append_of _ _
    (forall_mem_append_of _ _
      (forall_mem_append_of _ _
        (forall_mem_append_of _ _ ?base ?fs) ?pp) ?split) ?frac
  case base =>
    intro s hs
    rw [List.mem_singleton] at hs
    exact hs ▸ baseSeg_ok c.name
  case fs =>
    cases hc : c.featureSelection with
    | none => intro s hs; simp [optPart] at hs
    | some a =>
      rw [Option.map_some', optPart_featureSel]
      intro s hs
      rw [List.mem_singleton] at hs
      exact hs ▸ fsTag_ok a
  case pp =>
    intro s hs
    obtain ⟨t, ht, rfl⟩ := List.mem_map.mp hs
    obtain ⟨p, _, rfl⟩ := List.mem_map.mp ht
    exact pTag_ok p
  case split =>
    intro s hs
    rcases List.mem_cons.mp hs with hs | hs
    · exact hs ▸ ⟨by decide, by decide⟩
    · rw [List.mem_singleton] at hs
      exact hs ▸ sTag_ok c.splittingMethod
  case frac =>
    rw [if_neg hf.1]
    intro s hs
    rw [List.mem_singleton] at hs
    exact hs ▸ hf

/-- C9: the cache-key builder is collision-resistant on the valid
configuration surface — two configurations (registry dataset name,
feature-selection choice, ordered preprocessing list, split method,
split-fraction string) that map to the same split-cache path are equal.
The fraction's string form is assumed non-empty and separator-free, as
`str(f)` is for every `f ∈ (0,1)`. -/
theorem dataSetSplitPath_injective (c₁ c₂ : SplitCacheConfig)
    (h₁ : fractionStrOK c₁.fractionStr) (h₂ : fractionStrOK c₂.fractionStr)
    (heq : dataSetSplitPath c₁ = dataSetSplitPath c₂) : c₁ = c₂ := by
  rw [dataSetSplitPath_eq, dataSetSplitPath_eq] at heq
  have hd := congrArg String.data heq
  rw [String.data_append, String.data_append] at hd
  have hchar₀ := List.append_cancel_right hd
  have hjoin : joinWithDash (splitSegList c₁) = joinWithDash (splitSegList c₂) := by
    have : sepJoin ((splitSegList c₁).map String.data)
        = sepJoin ((splitSegList c₂).map String.data) := hchar₀
    exact congrArg String.mk this
  have hlists := joinWithDash_inj _ _ (splitSegList_ok c₁ h₁)
    (splitSegList_ok c₂ h₂) hjoin
  obtain ⟨n₁, fs₁, pp₁, sm₁, f₁⟩ := c₁
  obtain ⟨n₂, fs₂, pp₂, sm₂, f₂⟩ := c₂
  simp only [splitSegList] at hlists
  simp only [fractionStrOK] at h₁ h₂
  rw [if_neg h₁.1, if_neg h₂.1] at hlists
  simp only [List.map_map, List.cons_append, List.nil_append,
    List.append_assoc, List.cons.injEq] at hlists
  obtain ⟨hbase, hrest⟩ := hlists
  have hn : n₁ = n₂ := baseSeg_inj n₁ n₂ hbase
  have hrest₂ : optPart (fs₁.map featureSelStr) ++
      (pp₁.map (fun p => normaliseString (pMethodStr p)) ++
        ["split", normaliseString (sMethodStr sm₁), f₁])
    = optPart (fs₂.map featureSelStr) ++
      (pp₂.map (fun p => normaliseString (pMethodStr p)) ++
        ["split", normaliseString (sMethodStr sm₂), f₂]) := by
    simpa [Function.comp, List.append_assoc] using hrest
  obtain ⟨hfs, hpp, hsm, hf⟩ := parse_fs fs₁ fs₂ pp₁ pp₂ sm₁ sm₂ f₁ f₂ hrest₂
  simp [hn, hfs, hpp, hsm, hf]

/-- Witness for C9 at a concrete configuration with fraction `"0.9"`. -/
theorem dataSetSplitPath_injective_witness :
    fractionStrOK "0.9"
    ∧ (⟨DatasetName.mnist, some .removeZeros, [.gini], .random, "0.9"⟩
        : SplitCacheConfig)
      = ⟨DatasetName.mnist, some .removeZeros, [.gini], .random, "0.9"⟩ :=
  ⟨by decide,
   dataSetSplitPath_injective
     ⟨DatasetName.mnist, some .removeZeros, [.gini], .random, "0.9"⟩
     ⟨DatasetName.mnist, some .removeZeros, [.gini], .random, "0.9"⟩
     (by decide) (by decide) rfl⟩

/-- Witness for the amended C2 at a concrete fresh bundle. -/
theorem corrupt_cache_behavior_witness :
    loadFromSparseData .corrupt = .error .CacheCorrupt
    ∧ cacheOrCompute (some .corrupt) [("values", .flat (.dense2 [[1]]))]
        = .error .CacheCorrupt
    ∧ cacheOrCompute none [("values", .flat (.dense2 [[1]]))]
        = .ok [("values", .flat (.dense2 [[1]]))] :=
  corrupt_cache_behavior [("values", .flat (.dense2 [[1]]))]

/-- Witness for C5 at a concrete external-collaborator instance (the
failing run never evaluates `log` or `sqrt`). -/
theorem preprocessValues_lateBinding_bug_witness :
    preprocessValues ⟨fun _ => 0, fun _ => 0⟩ [[1,0],[0,1]]
        ["gini", "binarise"] = none
    ∧ preprocessValuesSpec ⟨fun _ => 0, fun _ => 0⟩ [[1,0],[0,1]]
        ["gini", "binarise"] = some [[1,0],[0,1]] :=
  preprocessValues_lateBinding_bug ⟨fun _ => 0, fun _ => 0⟩

/-- Witness for the amended C7 at a concrete loader bundle with a
feature-name mismatch. -/
theorem update_asserts_iff_witness :
    loadBundleCheck ⟨[[1],[2]], ["u","v"], ["a","b"], ["f1","f2"]⟩ = false ↔
      ((["a","b"] : List String).length ≠ ([[1],[2]] : List (List ℚ)).length
       ∨ (["f1","f2"] : List String).length ≠ ncols [[1],[2]]) :=
  update_asserts_iff ⟨[[1],[2]], ["u","v"], ["a","b"], ["f1","f2"]⟩

end SCVAE
